import Mathlib

/-!
Shallow embedding of the prep-tracking core: the dish store
(`context/DishesContext.tsx`), the ingredient reconciliation engine
(`context/IngredientsContext.tsx`), the similarity matcher and the
aggregation views (`app/(tabs)/two.tsx`, advanced-mode screens).

Modelling conventions:
* JavaScript numbers that hold ingredient weights become `ℚ`; counts and
  indices become `ℕ`.
* JavaScript objects used as string-keyed records (`Record<string, _>`)
  become insertion-ordered association lists, with the JS spread-update
  semantics (`{...obj, [k]: v}` keeps an existing key at its position and
  appends a new key at the end).
* A JS `Set` becomes a duplicate-free list in insertion order
  (`new Set(xs)` dedups keeping first occurrences, `add` appends if
  absent, `delete` removes).
* The `nanoid` id generator is modelled by a natural-number counter that
  is threaded through the operations; each fresh id is the current
  counter value.
* A callback such as `updatePrepBag` passed to `confirmUpdates` is
  modelled by recording the list of calls the function makes.
-/

namespace PrepTrack

/-- `{name, weight, unit}` ingredient record (`types/dish.ts`). -/
structure Ingredient where
  name : String
  weight : ℚ
  unit : String
deriving DecidableEq, Repr

/-- Prep bag (`types/prepBags.ts`); ids are modelled as naturals. -/
structure PrepBag where
  id : ℕ
  dishName : String
  ingredients : List Ingredient
  addedIngredients : List Ingredient
  isComplete : Bool
deriving DecidableEq, Repr

/-- Dish (`types/dish.ts`). `matrix` is the stored column-major grid. -/
structure Dish where
  id : ℕ
  name : String
  ingredients : List Ingredient
  quantity : ℕ
  prepBags : List PrepBag
  matrix : List (List (Option PrepBag))
  colour : Option String
deriving DecidableEq, Repr

/-! ### JS record and set primitives -/

/-- `{...l, [k]: v}` on a JS object used as a keyed record: update an
existing key in place, otherwise append the new binding at the end. -/
def setKey {κ β : Type} [BEq κ] (l : List (κ × β)) (k : κ) (v : β) :
    List (κ × β) :=
  if l.any (fun e => e.1 == k) then
    l.map (fun e => if e.1 == k then (e.1, v) else e)
  else l ++ [(k, v)]

/-- Key lookup on a JS-object association list. -/
def getKey {κ β : Type} [BEq κ] (l : List (κ × β)) (k : κ) : Option β :=
  (l.find? (fun e => e.1 == k)).map Prod.snd

/-- `Set.add`: append if not already present. -/
def jsSetInsert (s : List String) (x : String) : List String :=
  if x ∈ s then s else s ++ [x]

/-- `new Set(xs)`: deduplicate keeping first occurrences. -/
def jsSetOfList (l : List String) : List String :=
  l.foldl jsSetInsert []

/-- `Set.delete`. -/
def jsSetDelete (s : List String) (x : String) : List String :=
  s.filter (fun y => ¬ y = x)

/-! ### Ingredient reconciliation engine (`context/IngredientsContext.tsx`) -/

/-- `IngredientUpdates`: bag id → staged `ingredient name → intent` map.
Bag ids are the modelled (natural-number) ids. -/
abbrev PendingUpdates : Type := List (ℕ × List (String × Bool))

/-- `updatePending(bagId, ingredientName, toAdd)`: upsert the staged
intent for `(bagId, ingredientName)`. -/
def updatePending (st : PendingUpdates) (bagId : ℕ)
    (ingredientName : String) (toAdd : Bool) : PendingUpdates :=
  setKey st bagId (setKey ((getKey st bagId).getD []) ingredientName toAdd)

/-- `clearPending(bagId)`: drop the whole entry for `bagId`. -/
def clearPending (st : PendingUpdates) (bagId : ℕ) : PendingUpdates :=
  st.filter (fun e => ¬ e.1 == bagId)

/-- `pendingUpdates[bagId]?.pending || {}`. -/
def pendingOf (st : PendingUpdates) (bagId : ℕ) :
    List (String × Bool) :=
  (getKey st bagId).getD []

/-- The `forEach` over staged intents inside `confirmUpdates` /
`getEffectiveCount`: `toAdd` adds the name to the set, otherwise the
name is deleted. -/
def applyPending (s : List String) (pending : List (String × Bool)) :
    List String :=
  pending.foldl
    (fun s e => if e.2 then jsSetInsert s e.1 else jsSetDelete s e.1) s

/-- `ingredients.find(i => i.name === ing) || {name: ing, weight: 0,
unit: "unitless"}`. -/
def resolveIngredient (ingredients : List Ingredient) (ing : String) :
    Ingredient :=
  (ingredients.find? (fun i => i.name == ing)).getD ⟨ing, 0, "unitless"⟩

/-- Result of `confirmUpdates`: the `updatePrepBag` calls it makes and
the pending state it leaves behind. -/
structure ConfirmResult where
  calls : List (ℕ × List Ingredient)
  state : PendingUpdates

/-- `confirmUpdates(bagId, confirmed, ingredients, updatePrepBag)`. -/
def confirmUpdates (st : PendingUpdates) (bagId : ℕ)
    (confirmed : List String) (ingredients : List Ingredient) :
    ConfirmResult :=
  let pending := pendingOf st bagId
  let effective := applyPending (jsSetOfList confirmed) pending
  let newAdded := effective.map (resolveIngredient ingredients)
  { calls := [(bagId, newAdded)], state := clearPending st bagId }

/-- `getEffectiveCount(bagId, confirmed, total, showMissing)`. The JS
subtraction `total - effective.size` is an integer. -/
def getEffectiveCount (st : PendingUpdates) (bagId : ℕ)
    (confirmed : List String) (total : ℕ) (showMissing : Bool) : ℤ :=
  let effective := applyPending (jsSetOfList confirmed) (pendingOf st bagId)
  if showMissing then (total : ℤ) - effective.length else effective.length

/-! ### Dish store (`context/DishesContext.tsx`) -/

/-- `createMatrix(prepBags, columnHeight)`: 8 rows, `ceil(n/columnHeight)`
columns, cell `(row, col) = prepBags[col*columnHeight + row] || null`. -/
def createMatrix {α : Type} (prepBags : List α) (columnHeight : ℕ) :
    List (List (Option α)) :=
  let totalCols := (prepBags.length + columnHeight - 1) / columnHeight
  (List.range columnHeight).map (fun row =>
    (List.range totalCols).map (fun col =>
      prepBags.get? (col * columnHeight + row)))

/-- The `Array.from({length: quantity}, () => ({id: uuidv4(), ...}))`
bag-generation step shared by `addDish` and the `updateDish` growth
path; `cnt` is the id counter standing for the uuid generator. -/
def genBags (dishName : String) (ingredients : List Ingredient)
    (cnt quantity : ℕ) : List PrepBag :=
  (List.range quantity).map (fun k =>
    { id := cnt + k
      dishName := dishName
      ingredients := ingredients
      addedIngredients := []
      isComplete := false })

/-- `Omit<Dish, 'id' | 'prepBags' | 'matrix' | 'quantity'>`. -/
structure DishSpec where
  name : String
  ingredients : List Ingredient
  colour : Option String
deriving DecidableEq, Repr

/-- `addDish(dish, quantity)`: fresh dish id, `quantity` fresh bags, the
column-major matrix, appended to the stack.  Returns the new stack and
the advanced id counter. -/
def addDish (dish : DishSpec) (quantity : ℕ) (stack : List Dish)
    (cnt : ℕ) : List Dish × ℕ :=
  let newPrepBags := genBags dish.name dish.ingredients (cnt + 1) quantity
  let newDish : Dish :=
    { id := cnt
      name := dish.name
      ingredients := dish.ingredients
      quantity := quantity
      prepBags := newPrepBags
      matrix := createMatrix newPrepBags 8
      colour := dish.colour }
  (stack ++ [newDish], cnt + 1 + quantity)

/-- `undoDish()`: drop the most recently added dish. -/
def undoDish (stack : List Dish) : List Dish :=
  stack.dropLast

/-- `removeDish(name)`. -/
def removeDish (name : String) (stack : List Dish) : List Dish :=
  stack.filter (fun dish => ¬ dish.name = name)

/-- Body of the `map` inside `updateDish`: grow with fresh bags when
`quantity` exceeds the current bag count, truncate with `slice(0,
quantity)` when below, and rebuild the matrix. -/
def updateDishOne (name : String) (quantity : ℕ)
    (ingredients : List Ingredient) (dish : Dish) (cnt : ℕ) :
    Dish × ℕ :=
  if dish.name == name then
    let updatedBags :=
      if dish.prepBags.length < quantity then
        dish.prepBags ++
          genBags name ingredients cnt (quantity - dish.prepBags.length)
      else if quantity < dish.prepBags.length then
        dish.prepBags.take quantity
      else dish.prepBags
    ({ dish with
        ingredients := ingredients
        prepBags := updatedBags
        matrix := createMatrix updatedBags 8
        quantity := quantity },
      cnt + (quantity - dish.prepBags.length))
  else (dish, cnt)

/-- `updateDish(name, quantity, ingredients)`: map `updateDishOne` over
the stack, threading the id counter. -/
def updateDish (name : String) (quantity : ℕ)
    (ingredients : List Ingredient) :
    List Dish → ℕ → List Dish × ℕ
  | [], cnt => ([], cnt)
  | dish :: rest, cnt =>
    let r := updateDishOne name quantity ingredients dish cnt
    let rr := updateDish name quantity ingredients rest r.2
    (r.1 :: rr.1, rr.2)

/-- `updatePrepBag(prepBagId, newAddedIngredients)`: replace
`addedIngredients` wholesale on the matching bag and recompute the
count-based `isComplete`. -/
def updatePrepBag (stack : List Dish) (prepBagId : ℕ)
    (newAddedIngredients : List Ingredient) : List Dish :=
  stack.map (fun dish =>
    { dish with
        prepBags := dish.prepBags.map (fun bag =>
          if bag.id == prepBagId then
            { bag with
                addedIngredients := newAddedIngredients
                isComplete :=
                  newAddedIngredients.length == bag.ingredients.length }
          else bag) })

/-! ### Similarity matcher (`app/(tabs)/two.tsx`) -/

/-- Inner loop of the Levenshtein DP (`for j = 1..lenB`): walks the
remaining `(b[j-1], dp[i-1][j])` pairs carrying `dp[i-1][j-1]` and the
current row's last value `dp[i][j-1]`. -/
def levRowAux (x : Char) : List (Char × ℕ) → ℕ → ℕ → List ℕ
  | [], _, _ => []
  | (y, pj) :: rest, pj1, cPrev =>
    let c := min (pj + 1) (min (cPrev + 1) (pj1 + if x = y then 0 else 1))
    c :: levRowAux x rest pj c

/-- One outer iteration of the DP (`for i`): from row `dp[i-1]` to row
`dp[i]`, whose first entry is `dp[i][0] = i = dp[i-1][0] + 1`. -/
def levRow (x : Char) (b : List Char) (prev : List ℕ) : List ℕ :=
  match prev with
  | [] => []
  | p0 :: rest => (p0 + 1) :: levRowAux x (b.zip rest) p0 (p0 + 1)

/-- `levenshteinDistance(a, b)`: row-by-row DP; `dp[0] = [0..lenB]`,
result `dp[lenA][lenB]`. -/
def levenshteinDistance (a b : List Char) : ℕ :=
  (a.foldl (fun prev x => levRow x b prev)
    (List.range (b.length + 1))).getLastD 0

/-- `str.toLowerCase()`, per character. -/
def jsToLower (s : List Char) : List Char :=
  s.map Char.toLower

/-- `similarity(str1, str2)`: `1 - dist/maxLen` with the two
empty-string special cases (`!str` is JS falsiness on strings). -/
def similarity (str1 str2 : List Char) : ℚ :=
  if str1.isEmpty && str2.isEmpty then 1
  else if str1.isEmpty || str2.isEmpty then 0
  else
    1 - (levenshteinDistance (jsToLower str1) (jsToLower str2) : ℚ) /
      (max str1.length str2.length : ℚ)

/-- Accumulator entry `{ totalWeight, unit }`. -/
structure AggEntry where
  totalWeight : ℚ
  unit : String
deriving DecidableEq, Repr

/-- `findSimilarIngredientKey(acc, ingredientName, threshold)`: first
key of the accumulator whose similarity to `ingredientName` meets the
threshold. -/
def findSimilarIngredientKey (acc : List (String × AggEntry))
    (ingredientName : String) (threshold : ℚ) : Option String :=
  (acc.find? (fun e =>
    threshold ≤ similarity e.1.data ingredientName.data)).map Prod.fst

/-! ### Aggregation and exhaustion views -/

/-- `acc[similarKey].totalWeight += w`: bump the first entry with the
given key. -/
def addWeightFirst : List (String × AggEntry) → String → ℚ →
    List (String × AggEntry)
  | [], _, _ => []
  | (k, e) :: rest, key, w =>
    if k = key then (k, { e with totalWeight := e.totalWeight + w }) :: rest
    else (k, e) :: addWeightFirst rest key w

/-- `dish.prepBags.filter(bag => !bag.isComplete).length`. -/
def remainingCount (dish : Dish) : ℕ :=
  (dish.prepBags.filter (fun bag => !bag.isComplete)).length

/-- `aggregatedIngredientsRemaining(dishesStack)` (advanced-mode
screens): fold incomplete-bag-weighted ingredient contributions into
similarity-merged buckets. -/
def aggregatedIngredientsRemaining (dishesStack : List Dish) :
    List (String × AggEntry) :=
  dishesStack.foldl (fun acc dish =>
    dish.ingredients.foldl (fun acc ingredient =>
      let weightNeeded := ingredient.weight * (remainingCount dish : ℚ)
      match findSimilarIngredientKey acc ingredient.name 0.8 with
      | some similarKey => addWeightFirst acc similarKey weightNeeded
      | none => acc ++ [(ingredient.name, ⟨weightNeeded, ingredient.unit⟩)])
      acc) []

/-- `isIngredientExhausted(ingredient, dishesStack)`: `required` counts
every bag of every dish whose recipe mentions the ingredient,
`confirmed` counts those bags that already added it; exhausted iff
`required > 0 && confirmed >= required`. -/
def isIngredientExhausted (ingredient : String)
    (dishesStack : List Dish) : Bool :=
  let counts := dishesStack.foldl (fun (rc : ℕ × ℕ) dish =>
    if dish.ingredients.any (fun ing => ing.name == ingredient) then
      (rc.1 + dish.prepBags.length,
        rc.2 + (dish.prepBags.filter (fun bag =>
          bag.addedIngredients.any (fun ai => ai.name == ingredient))).length)
    else rc) (0, 0)
  decide (0 < counts.1) && decide (counts.1 ≤ counts.2)

/-! ### Combined application state

The dish store and the reconciliation engine are separate providers;
`AppState` packages their two state variables so that cross-component
claims (staging must not touch confirmed state) can be stated. -/

structure AppState where
  dishesStack : List Dish
  pendingUpdates : PendingUpdates

/-- Staging an intent goes through `updatePending` and only touches the
`pendingUpdates` provider state. -/
def stagePendingS (s : AppState) (bagId : ℕ) (ingredientName : String)
    (toAdd : Bool) : AppState :=
  { s with
      pendingUpdates :=
        updatePending s.pendingUpdates bagId ingredientName toAdd }

/-- Exhaustion as read by the screens: a function of the dish stack. -/
def isIngredientExhaustedS (s : AppState) (ingredient : String) : Bool :=
  isIngredientExhausted ingredient s.dishesStack

/-! ### Spec-side definitions used to state the claims -/

/-- Flatten a matrix column-major (all of column 0 top to bottom, then
column 1, ...) dropping the empty slots, as in the round-trip claim on
`createMatrix`. -/
def flattenColMajor {α : Type} (m : List (List (Option α))) : List α :=
  (List.range ((m.headD []).length)).flatMap (fun c =>
    m.filterMap (fun row => row.getD c none))

/-- Spec-side reading of §4.4: the stream of per-dish contributions
`(name, weight * remainingCount, unit)`, each dish's ingredients in
order. -/
def specContributions (dishesStack : List Dish) :
    List (String × ℚ × String) :=
  dishesStack.flatMap (fun d =>
    d.ingredients.map (fun ing =>
      (ing.name, ing.weight * (remainingCount d : ℚ), ing.unit)))

/-- Spec-side reading of §4.4: merge one contribution into the buckets
via the similarity matcher at threshold `0.8`; a bucket keeps the key
under which it was created. -/
def specMergeStep (acc : List (String × AggEntry))
    (c : String × ℚ × String) : List (String × AggEntry) :=
  match findSimilarIngredientKey acc c.1 0.8 with
  | some k => addWeightFirst acc k c.2.1
  | none => acc ++ [(c.1, ⟨c.2.1, c.2.2⟩)]

/-- Sample recipe used by concrete witnesses. -/
def sampleIngredients : List Ingredient :=
  [⟨"Salt", 5, "g"⟩, ⟨"Pepper", 2, "g"⟩]

/-- Sample bag used by concrete witnesses. -/
def sampleBag : PrepBag :=
  ⟨1, "Soup", sampleIngredients, [], false⟩

/-- Sample dish used by concrete witnesses. -/
def sampleDish : Dish :=
  ⟨0, "Soup", sampleIngredients, 1, [sampleBag],
    createMatrix [sampleBag] 8, none⟩

/-- Sample staged state used by concrete witnesses: stage adding
`Salt` then `Pepper` on bag `7`. -/
def samplePending : PendingUpdates :=
  updatePending (updatePending [] 7 "Salt" true) 7 "Pepper" true

/-! ## Theorems -/

lemma mem_jsSetInsert {s : List String} {x y : String} :
    y ∈ jsSetInsert s x ↔ y ∈ s ∨ y = x := by
  unfold jsSetInsert
  split
  · rename_i hx
    constructor
    · exact Or.inl
    · rintro (h | rfl)
      · exact h
      · exact hx
  · simp

lemma mem_jsSetDelete {s : List String} {x y : String} :
    y ∈ jsSetDelete s x ↔ y ∈ s ∧ y ≠ x := by
  simp [jsSetDelete]

lemma nodup_jsSetInsert {s : List String} {x : String} (h : s.Nodup) :
    (jsSetInsert s x).Nodup := by
  unfold jsSetInsert
  split
  · exact h
  · rename_i hx
    simp [List.nodup_append, h, hx]

lemma nodup_jsSetDelete {s : List String} {x : String} (h : s.Nodup) :
    (jsSetDelete s x).Nodup :=
  h.filter _

lemma nodup_foldl_jsSetInsert :
    ∀ (l : List String) (s : List String), s.Nodup →
      (l.foldl jsSetInsert s).Nodup := by
  intro l
  induction l with
  | nil => intro s hs; exact hs
  | cons x rest ih =>
    intro s hs
    exact ih (jsSetInsert s x) (nodup_jsSetInsert hs)

lemma nodup_jsSetOfList (l : List String) : (jsSetOfList l).Nodup :=
  nodup_foldl_jsSetInsert l [] List.nodup_nil

lemma mem_foldl_jsSetInsert (n : String) :
    ∀ (l : List String) (s : List String),
      n ∈ l.foldl jsSetInsert s ↔ n ∈ s ∨ n ∈ l := by
  intro l
  induction l with
  | nil => intro s; simp
  | cons x rest ih =>
    intro s
    rw [List.foldl_cons, ih, mem_jsSetInsert]
    simp [or_assoc, List.mem_cons]

lemma mem_jsSetOfList {n : String} {l : List String} :
    n ∈ jsSetOfList l ↔ n ∈ l := by
  rw [jsSetOfList, mem_foldl_jsSetInsert]
  simp

lemma foldl_jsSetInsert_eq_append :
    ∀ (l : List String) (s : List String),
      l.Nodup → (∀ x ∈ l, x ∉ s) →
      l.foldl jsSetInsert s = s ++ l := by
  intro l
  induction l with
  | nil => intro s _ _; simp
  | cons x rest ih =>
    intro s hnd hdisj
    rw [List.nodup_cons] at hnd
    have hx : x ∉ s := hdisj x (List.mem_cons_self x rest)
    have hins : jsSetInsert s x = s ++ [x] := by
      unfold jsSetInsert
      exact if_neg hx
    rw [List.foldl_cons, hins,
      ih (s ++ [x]) hnd.2 ?_, List.append_assoc, List.singleton_append]
    intro y hy
    simp only [List.mem_append, List.mem_singleton]
    rintro (h | rfl)
    · exact hdisj y (List.mem_cons_of_mem x hy) h
    · exact hnd.1 hy

lemma jsSetOfList_eq_self {l : List String} (h : l.Nodup) :
    jsSetOfList l = l := by
  rw [jsSetOfList, foldl_jsSetInsert_eq_append l [] h (by simp)]
  simp

lemma nodup_applyPending {s : List String} (p : List (String × Bool))
    (h : s.Nodup) : (applyPending s p).Nodup := by
  induction p generalizing s with
  | nil => exact h
  | cons e rest ih =>
    have hstep : applyPending s (e :: rest) =
        applyPending
          (if e.2 then jsSetInsert s e.1 else jsSetDelete s e.1) rest := rfl
    rw [hstep]
    apply ih
    split
    · exact nodup_jsSetInsert h
    · exact nodup_jsSetDelete h

lemma getKey_cons_self {κ β : Type} [BEq κ] [LawfulBEq κ]
    {k : κ} {v : β} {l : List (κ × β)} :
    getKey ((k, v) :: l) k = some v := by
  simp [getKey, List.find?_cons]

lemma getKey_cons_ne {κ β : Type} [BEq κ] [LawfulBEq κ]
    {k n : κ} {v : β} {l : List (κ × β)} (h : ¬ k = n) :
    getKey ((k, v) :: l) n = getKey l n := by
  simp [getKey, List.find?_cons, h]

lemma getKey_eq_none_of_not_mem {κ β : Type} [BEq κ] [LawfulBEq κ]
    {l : List (κ × β)} {n : κ} (h : n ∉ l.map Prod.fst) :
    getKey l n = none := by
  unfold getKey
  rw [List.find?_eq_none.mpr]
  · rfl
  · intro e he
    simp only [beq_iff_eq]
    intro hc
    apply h
    rw [← hc]
    exact List.mem_map_of_mem Prod.fst he

lemma applyPending_mem (n : String) :
    ∀ (p : List (String × Bool)) (s : List String),
      (p.map Prod.fst).Nodup →
      (n ∈ applyPending s p ↔
        (getKey p n = some true ∨
          (n ∈ s ∧ getKey p n ≠ some false))) := by
  intro p
  induction p with
  | nil =>
    intro s _
    simp [applyPending, getKey]
  | cons e rest ih =>
    intro s hnd
    obtain ⟨k, v⟩ := e
    rw [List.map_cons, List.nodup_cons] at hnd
    have hstep : applyPending s ((k, v) :: rest) =
        applyPending
          (if v then jsSetInsert s k else jsSetDelete s k) rest := rfl
    rw [hstep, ih _ hnd.2]
    by_cases hk : k = n
    · subst hk
      have hrest : getKey rest k = none :=
        getKey_eq_none_of_not_mem hnd.1
      rw [hrest, getKey_cons_self]
      cases v
      · simp [mem_jsSetDelete]
      · simp [mem_jsSetInsert]
    · rw [getKey_cons_ne hk]
      have hmem :
          n ∈ (if v then jsSetInsert s k else jsSetDelete s k) ↔
            n ∈ s := by
        have hnk : n ≠ k := fun hc => hk hc.symm
        cases v <;>
          simp [mem_jsSetInsert, mem_jsSetDelete, hnk]
      rw [hmem]

lemma resolveIngredient_name (ings : List Ingredient) (n : String) :
    (resolveIngredient ings n).name = n := by
  unfold resolveIngredient
  cases h : ings.find? (fun i => i.name == n) with
  | none => rfl
  | some r =>
    have hr := List.find?_some h
    simp only [beq_iff_eq] at hr
    simpa using hr

lemma resolveIngredient_mem_or (ings : List Ingredient) (n : String) :
    resolveIngredient ings n ∈ ings ∨
      ((∀ i ∈ ings, i.name ≠ n) ∧
        resolveIngredient ings n = ⟨n, 0, "unitless"⟩) := by
  unfold resolveIngredient
  cases h : ings.find? (fun i => i.name == n) with
  | none =>
    right
    refine ⟨?_, rfl⟩
    intro i hi
    have := List.find?_eq_none.mp h i hi
    simpa using this
  | some r =>
    left
    simpa using List.mem_of_find?_eq_some h

lemma getKey_clearPending (st : PendingUpdates) (bagId : ℕ) :
    getKey (clearPending st bagId) bagId = none := by
  unfold getKey clearPending
  rw [List.find?_eq_none.mpr]
  · rfl
  · intro e he
    rw [List.mem_filter] at he
    simpa using he.2

lemma pendingOf_clearPending (st : PendingUpdates) (bagId : ℕ) :
    pendingOf (clearPending st bagId) bagId = [] := by
  unfold pendingOf
  rw [getKey_clearPending]
  rfl

lemma map_name_resolve (ings : List Ingredient) (l : List String) :
    (l.map (resolveIngredient ings)).map Ingredient.name = l := by
  rw [List.map_map]
  have : l.map (Ingredient.name ∘ resolveIngredient ings) = l.map id :=
    List.map_congr_left (fun n _ => resolveIngredient_name ings n)
  rw [this, List.map_id]

/-- C1: `confirmUpdates(bagId, confirmed, ings, writeBack)` invokes the
write-back exactly once, with the effective name set (confirmed names
plus staged adds minus staged removes) resolved through the recipe list
(absent names falling back to the `{weight: 0, unit: "unitless"}`
sentinel carrying the name), and leaves no pending entry for the
bag. -/
theorem claim_C1 (st : PendingUpdates) (bagId : ℕ)
    (confirmed : List String) (ings : List Ingredient)
    (hnd : ((pendingOf st bagId).map Prod.fst).Nodup) :
    (confirmUpdates st bagId confirmed ings).calls =
      [(bagId, (applyPending (jsSetOfList confirmed)
        (pendingOf st bagId)).map (resolveIngredient ings))] ∧
    (∀ n, n ∈ applyPending (jsSetOfList confirmed) (pendingOf st bagId) ↔
      (getKey (pendingOf st bagId) n = some true ∨
        (n ∈ confirmed ∧ getKey (pendingOf st bagId) n ≠ some false))) ∧
    (∀ n, (resolveIngredient ings n).name = n ∧
      (resolveIngredient ings n ∈ ings ∨
        ((∀ i ∈ ings, i.name ≠ n) ∧
          resolveIngredient ings n = ⟨n, 0, "unitless"⟩))) ∧
    getKey (confirmUpdates st bagId confirmed ings).state bagId =
      none := by
  refine ⟨rfl, ?_,
    fun n => ⟨resolveIngredient_name ings n,
      resolveIngredient_mem_or ings n⟩,
    getKey_clearPending st bagId⟩
  intro n
  rw [applyPending_mem n _ _ hnd, mem_jsSetOfList]

/-- Witness for C1: staging `Salt` and `Pepper` on bag `7`, then
confirming against an empty confirmed list and the sample recipe. -/
theorem claim_C1_witness :
    ((pendingOf samplePending 7).map Prod.fst).Nodup ∧
    ((confirmUpdates samplePending 7 [] sampleIngredients).calls =
      [(7, (applyPending (jsSetOfList [])
        (pendingOf samplePending 7)).map
          (resolveIngredient sampleIngredients))] ∧
    (∀ n, n ∈ applyPending (jsSetOfList [])
        (pendingOf samplePending 7) ↔
      (getKey (pendingOf samplePending 7) n = some true ∨
        (n ∈ ([] : List String) ∧
          getKey (pendingOf samplePending 7) n ≠ some false))) ∧
    (∀ n, (resolveIngredient sampleIngredients n).name = n ∧
      (resolveIngredient sampleIngredients n ∈ sampleIngredients ∨
        ((∀ i ∈ sampleIngredients, i.name ≠ n) ∧
          resolveIngredient sampleIngredients n = ⟨n, 0, "unitless"⟩))) ∧
    getKey (confirmUpdates samplePending 7 [] sampleIngredients).state 7 =
      none) :=
  ⟨by decide, claim_C1 samplePending 7 [] sampleIngredients (by decide)⟩

lemma updatePrepBag_idem (stack : List Dish) (bagId : ℕ)
    (l : List Ingredient) :
    updatePrepBag (updatePrepBag stack bagId l) bagId l =
      updatePrepBag stack bagId l := by
  unfold updatePrepBag
  rw [List.map_map]
  apply List.map_congr_left
  intro d _
  simp only [Function.comp_apply]
  congr 1
  rw [List.map_map]
  apply List.map_congr_left
  intro bag _
  simp only [Function.comp_apply]
  cases hb : bag.id == bagId <;> simp [hb]

/-- C6: once `confirmUpdates` has drained the bag's pending entry and
its write-back list has been applied, re-confirming with no new staged
intents is a no-op: the second call writes back the same list, pending
for the bag stays empty, and re-applying the write to the dish store
changes nothing. -/
theorem claim_C6 (st : PendingUpdates) (bagId : ℕ)
    (confirmed : List String) (ings : List Ingredient)
    (stack : List Dish) (added₁ : List Ingredient)
    (hcall : (confirmUpdates st bagId confirmed ings).calls =
      [(bagId, added₁)]) :
    (confirmUpdates (confirmUpdates st bagId confirmed ings).state bagId
        (added₁.map Ingredient.name) ings).calls = [(bagId, added₁)] ∧
    getKey (confirmUpdates (confirmUpdates st bagId confirmed ings).state
        bagId (added₁.map Ingredient.name) ings).state bagId = none ∧
    updatePrepBag (updatePrepBag stack bagId added₁) bagId added₁ =
      updatePrepBag stack bagId added₁ := by
  have hadded : added₁ = (applyPending (jsSetOfList confirmed)
      (pendingOf st bagId)).map (resolveIngredient ings) := by
    have h0 : ([(bagId, (applyPending (jsSetOfList confirmed)
        (pendingOf st bagId)).map (resolveIngredient ings))] :
          List (ℕ × List Ingredient)) = [(bagId, added₁)] := hcall
    simp only [List.cons.injEq, Prod.mk.injEq, and_true, true_and] at h0
    exact h0.symm
  have heff : (applyPending (jsSetOfList confirmed)
      (pendingOf st bagId)).Nodup :=
    nodup_applyPending _ (nodup_jsSetOfList confirmed)
  refine ⟨?_, getKey_clearPending _ _, updatePrepBag_idem stack bagId _⟩
  show [(bagId, (applyPending
      (jsSetOfList (added₁.map Ingredient.name))
      (pendingOf (clearPending st bagId) bagId)).map
        (resolveIngredient ings))] = [(bagId, added₁)]
  rw [pendingOf_clearPending]
  show [(bagId, (jsSetOfList
      (added₁.map Ingredient.name)).map (resolveIngredient ings))] =
    [(bagId, added₁)]
  rw [hadded, map_name_resolve, jsSetOfList_eq_self heff]

/-- Witness for C6: re-confirming bag `7` after the staged sample
updates were confirmed and written back. -/
theorem claim_C6_witness :
    ((confirmUpdates samplePending 7 [] sampleIngredients).calls =
      [(7, sampleIngredients)]) ∧
    ((confirmUpdates (confirmUpdates samplePending 7 []
        sampleIngredients).state 7
        (sampleIngredients.map Ingredient.name)
        sampleIngredients).calls = [(7, sampleIngredients)] ∧
    getKey (confirmUpdates (confirmUpdates samplePending 7 []
        sampleIngredients).state 7
        (sampleIngredients.map Ingredient.name)
        sampleIngredients).state 7 = none ∧
    updatePrepBag (updatePrepBag [sampleDish] 7 sampleIngredients) 7
        sampleIngredients =
      updatePrepBag [sampleDish] 7 sampleIngredients) :=
  ⟨by decide,
    claim_C6 samplePending 7 [] sampleIngredients [sampleDish]
      sampleIngredients (by decide)⟩

lemma exhausted_foldl_not_required (ingredient : String) :
    ∀ stack : List Dish,
      (∀ d ∈ stack, ∀ ing ∈ d.ingredients, ing.name ≠ ingredient) →
      stack.foldl (fun (rc : ℕ × ℕ) dish =>
        if dish.ingredients.any (fun ing => ing.name == ingredient) then
          (rc.1 + dish.prepBags.length,
            rc.2 + (dish.prepBags.filter (fun bag =>
              bag.addedIngredients.any
                (fun ai => ai.name == ingredient))).length)
        else rc) (0, 0) = (0, 0) := by
  intro stack
  induction stack with
  | nil => intro _; rfl
  | cons d rest ih =>
    intro h
    have hd : (d.ingredients.any (fun ing => ing.name == ingredient)) = false := by
      simp only [List.any_eq_false, beq_iff_eq]
      exact h d (List.mem_cons_self d rest)
    simp only [List.foldl_cons, hd, Bool.false_eq_true, if_false]
    exact ih (fun d' hd' => h d' (List.mem_cons_of_mem d hd'))

/-- C10: an ingredient that no dish in the stack requires is reported
as not exhausted, thanks to the `required > 0` guard, even though the
per-dish universal condition is vacuous. -/
theorem claim_C10 (ingredient : String) (stack : List Dish)
    (h : ∀ d ∈ stack, ∀ ing ∈ d.ingredients, ing.name ≠ ingredient) :
    isIngredientExhausted ingredient stack = false := by
  unfold isIngredientExhausted
  rw [exhausted_foldl_not_required ingredient stack h]
  rfl

/-- Witness for C10 at a concrete stack and ingredient. -/
theorem claim_C10_witness :
    (∀ d ∈ [sampleDish], ∀ ing ∈ d.ingredients, ing.name ≠ "Sugar") ∧
    isIngredientExhausted "Sugar" [sampleDish] = false :=
  ⟨by decide, claim_C10 "Sugar" [sampleDish] (by decide)⟩

/-- C5: exhaustion is a function of confirmed state (the dish stack)
only; staging a pending intent leaves the dish stack, and hence every
exhaustion result, unchanged, and any two states agreeing on the dish
stack (whatever their pending maps) agree on exhaustion. -/
theorem claim_C5 (s : AppState) (bagId : ℕ) (ingredientName : String)
    (toAdd : Bool) (ingredient : String) :
    (stagePendingS s bagId ingredientName toAdd).dishesStack =
      s.dishesStack ∧
    isIngredientExhaustedS (stagePendingS s bagId ingredientName toAdd)
      ingredient = isIngredientExhaustedS s ingredient ∧
    (∀ s₁ s₂ : AppState, s₁.dishesStack = s₂.dishesStack →
      isIngredientExhaustedS s₁ ingredient =
        isIngredientExhaustedS s₂ ingredient) := by
  refine ⟨rfl, rfl, ?_⟩
  intro s₁ s₂ h
  unfold isIngredientExhaustedS
  rw [h]

/-- C7: bag generation produces exactly `quantity` bags (none for 0),
with pairwise-distinct fresh ids, the dish's ingredient list, empty
`addedIngredients` and `isComplete = false`; `addDish` appends a dish
carrying exactly those generated bags. -/
theorem claim_C7 (dishName : String) (ings : List Ingredient) (c q : ℕ)
    (ds : DishSpec) (stack : List Dish) (cnt : ℕ) :
    (genBags dishName ings c q).length = q ∧
    genBags dishName ings c 0 = [] ∧
    ((genBags dishName ings c q).map PrepBag.id).Nodup ∧
    (∀ b ∈ genBags dishName ings c q,
      b.dishName = dishName ∧ b.ingredients = ings ∧
      b.addedIngredients = [] ∧ b.isComplete = false) ∧
    (addDish ds q stack cnt).1.map Dish.prepBags =
      stack.map Dish.prepBags ++
        [genBags ds.name ds.ingredients (cnt + 1) q] := by
  refine ⟨by simp [genBags], rfl, ?_, ?_, by simp [addDish]⟩
  · simp only [genBags, List.map_map]
    have hcomp : (PrepBag.id ∘ fun k =>
        (⟨c + k, dishName, ings, [], false⟩ : PrepBag)) =
        fun k => c + k := rfl
    rw [hcomp]
    exact (List.nodup_range q).map (add_right_injective c)
  · intro b hb
    simp only [genBags, List.mem_map, List.mem_range] at hb
    obtain ⟨k, _, rfl⟩ := hb
    exact ⟨rfl, rfl, rfl, rfl⟩

lemma updateDish_forall₂ (name : String) (q : ℕ)
    (ings : List Ingredient) (stack : List Dish) (cnt : ℕ) :
    List.Forall₂ (fun d d' => ∃ c, d' = (updateDishOne name q ings d c).1)
      stack (updateDish name q ings stack cnt).1 := by
  induction stack generalizing cnt with
  | nil => exact List.Forall₂.nil
  | cons d rest ih =>
    exact List.Forall₂.cons ⟨cnt, rfl⟩ (ih _)

lemma updateDishOne_eq_of_ne (name : String) (q : ℕ)
    (ings : List Ingredient) (d : Dish) (c : ℕ) (h : d.name ≠ name) :
    (updateDishOne name q ings d c).1 = d := by
  simp [updateDishOne, h]

lemma updateDishOne_match (name : String) (q : ℕ)
    (ings : List Ingredient) (d : Dish) (c : ℕ) (h : d.name = name) :
    (updateDishOne name q ings d c).1.prepBags.length = q ∧
    (updateDishOne name q ings d c).1.quantity = q ∧
    (d.prepBags.length < q →
      (updateDishOne name q ings d c).1.prepBags =
        d.prepBags ++ genBags name ings c (q - d.prepBags.length)) ∧
    (q < d.prepBags.length →
      (updateDishOne name q ings d c).1.prepBags = d.prepBags.take q) ∧
    (q = d.prepBags.length →
      (updateDishOne name q ings d c).1.prepBags = d.prepBags) := by
  have hb : (d.name == name) = true := by simp [h]
  rcases Nat.lt_trichotomy d.prepBags.length q with hlt | heq | hgt
  · have hbags : (updateDishOne name q ings d c).1.prepBags =
        d.prepBags ++ genBags name ings c (q - d.prepBags.length) := by
      simp [updateDishOne, hb, hlt]
    refine ⟨?_, by simp [updateDishOne, hb, hlt], fun _ => hbags,
      fun hc => absurd hc (by omega), fun hc => absurd hc (by omega)⟩
    rw [hbags]
    simp only [List.length_append, genBags, List.length_map,
      List.length_range]
    omega
  · have hbags : (updateDishOne name q ings d c).1.prepBags =
        d.prepBags := by
      simp [updateDishOne, hb, heq]
    refine ⟨by rw [hbags]; omega, by simp [updateDishOne, hb, heq],
      fun hc => absurd hc (by omega), fun hc => absurd hc (by omega),
      fun _ => hbags⟩
  · have hbags : (updateDishOne name q ings d c).1.prepBags =
        d.prepBags.take q := by
      simp [updateDishOne, hb, hgt, Nat.lt_asymm hgt]
    refine ⟨by rw [hbags]; simp [List.length_take]; omega,
      by simp [updateDishOne, hb, hgt, Nat.lt_asymm hgt],
      fun hc => absurd hc (by omega), fun _ => hbags,
      fun hc => absurd hc (by omega)⟩

/-- C2: after `updateDish(name, q, ings)` every matching dish has
exactly `q` prep bags and quantity `q`: grown by exactly `q - current`
freshly generated bags when `q` exceeds the current count, cut to the
first `q` bags when below, and untouched when equal; non-matching
dishes are untouched. -/
theorem claim_C2 (name : String) (q : ℕ) (ings : List Ingredient)
    (stack : List Dish) (cnt : ℕ) :
    List.Forall₂ (fun d d' =>
      (d.name ≠ name → d' = d) ∧
      (d.name = name →
        d'.prepBags.length = q ∧ d'.quantity = q ∧
        (d.prepBags.length < q → ∃ c, d'.prepBags =
          d.prepBags ++ genBags name ings c (q - d.prepBags.length)) ∧
        (q < d.prepBags.length → d'.prepBags = d.prepBags.take q) ∧
        (q = d.prepBags.length → d'.prepBags = d.prepBags)))
      stack (updateDish name q ings stack cnt).1 := by
  refine (updateDish_forall₂ name q ings stack cnt).imp ?_
  rintro d d' ⟨c, rfl⟩
  refine ⟨fun hne => updateDishOne_eq_of_ne name q ings d c hne,
    fun heq => ?_⟩
  obtain ⟨h1, h2, h3, h4, h5⟩ := updateDishOne_match name q ings d c heq
  exact ⟨h1, h2, fun hlt => ⟨c, h3 hlt⟩, h4, h5⟩

/-- C3: when the new quantity is below the bag count, `updateDish`
truncates strictly from the tail: the matching dish's new bag list is
the first `q` old bags unchanged, and every bag at index `≥ q` is
gone. -/
theorem claim_C3 (name : String) (q : ℕ) (ings : List Ingredient)
    (stack : List Dish) (cnt : ℕ) :
    List.Forall₂ (fun d d' =>
      d.name = name → q < d.prepBags.length →
        d'.prepBags = d.prepBags.take q ∧
        d'.prepBags.length = q ∧
        (∀ i, i < q → d'.prepBags.get? i = d.prepBags.get? i) ∧
        (∀ i, q ≤ i → d'.prepBags.get? i = none))
      stack (updateDish name q ings stack cnt).1 := by
  refine (updateDish_forall₂ name q ings stack cnt).imp ?_
  rintro d d' ⟨c, rfl⟩ heq hlt
  obtain ⟨h1, _, _, h4, _⟩ := updateDishOne_match name q ings d c heq
  have htake := h4 hlt
  refine ⟨htake, h1, ?_, ?_⟩
  · intro i hi
    rw [htake]
    simp [List.get?_eq_getElem?, List.getElem?_take_of_lt hi]
  · intro i hi
    refine List.get?_eq_none.mpr ?_
    rw [h1]
    exact hi

lemma range_filterMap_get {α : Type} (l : List α) :
    ∀ (n s : ℕ),
      (List.range n).filterMap (fun r => l.get? (s + r)) =
        (l.drop s).take n := by
  intro n
  induction n with
  | zero => intro s; simp
  | succ n ih =>
    intro s
    have h1 : (l.drop s).get? n = l.get? (s + n) := by
      rw [List.get?_drop]
    rw [List.range_succ, List.filterMap_append, ih s, List.take_succ]
    congr 1
    rw [List.get?_eq_getElem?] at h1
    rw [h1]
    cases h : l.get? (s + n) <;>
      simp [List.get?_eq_getElem?] at h <;> simp [h]

lemma chunks_flatMap {α : Type} :
    ∀ (cols : ℕ) (l : List α), l.length ≤ cols * 8 →
      (List.range cols).flatMap (fun c => (l.drop (c * 8)).take 8) =
        l := by
  intro cols
  induction cols with
  | zero =>
    intro l h
    simp only [Nat.zero_mul, Nat.le_zero] at h
    simp [List.eq_nil_of_length_eq_zero h]
  | succ cols ih =>
    intro l h
    rw [List.range_succ_eq_map, List.flatMap_cons]
    simp only [Nat.zero_mul, List.drop_zero]
    have hmap : ((List.range cols).map (fun c => c + 1)).flatMap
          (fun c => (l.drop (c * 8)).take 8) =
        (List.range cols).flatMap
          (fun c => ((l.drop 8).drop (c * 8)).take 8) := by
      rw [List.flatMap_map]
      congr 1
      funext c
      rw [List.drop_drop]
      congr 2
      omega
    rw [hmap, ih (l.drop 8) (by rw [List.length_drop]; omega),
      List.take_append_drop]

lemma flatMap_congr_mem {α β : Type} (l : List α) (f g : α → List β)
    (h : ∀ c ∈ l, f c = g c) : l.flatMap f = l.flatMap g := by
  induction l with
  | nil => rfl
  | cons a t ih =>
    rw [List.flatMap_cons, List.flatMap_cons,
      h a (List.mem_cons_self a t),
      ih (fun c hc => h c (List.mem_cons_of_mem a hc))]

lemma ceil_div_eight (n : ℕ) : ⌈(n : ℚ) / 8⌉₊ = (n + 8 - 1) / 8 := by
  apply le_antisymm
  · apply Nat.ceil_le.mpr
    rw [div_le_iff (by norm_num : (0:ℚ) < 8)]
    exact_mod_cast (by omega : n ≤ ((n + 8 - 1) / 8) * 8)
  · rcases Nat.eq_zero_or_pos ((n + 8 - 1) / 8) with hk | hk
    · exact le_of_eq_of_le hk (Nat.zero_le _)
    · have hlt : (n + 8 - 1) / 8 - 1 < ⌈(n : ℚ) / 8⌉₊ := by
        rw [Nat.lt_ceil, lt_div_iff (by norm_num : (0:ℚ) < 8)]
        exact_mod_cast (by omega : ((n + 8 - 1) / 8 - 1) * 8 < n)
      omega

lemma createMatrix_col {α : Type} (bags : List α) (c : ℕ)
    (hc : c < (bags.length + 8 - 1) / 8) :
    (createMatrix bags 8).filterMap (fun row => row.getD c none) =
      (bags.drop (c * 8)).take 8 := by
  unfold createMatrix
  rw [List.filterMap_map]
  have hcol : ∀ r : ℕ,
      (((List.range ((bags.length + 8 - 1) / 8)).map
        (fun col => bags.get? (col * 8 + r))).getD c none) =
        bags.get? (c * 8 + r) := by
    intro r
    rw [List.getD_eq_getElem?_getD, List.getElem?_map,
      List.getElem?_range hc]
    rfl
  have hfun : ((fun row => row.getD c none) ∘ fun row =>
      (List.range ((bags.length + 8 - 1) / 8)).map
        (fun col => bags.get? (col * 8 + row))) =
      fun r => bags.get? (c * 8 + r) := by
    funext r
    exact hcol r
  rw [hfun]
  exact range_filterMap_get bags 8 (c * 8)

/-- C4: the matrix built from a bag list with row height 8 has 8 rows,
`ceil(len/8)` columns, cell `(r, c) = bags[c*8 + r]` (empty when out of
range), and flattening it column-major while dropping empty slots gives
back the bag list. -/
theorem claim_C4 (bags : List PrepBag) :
    (createMatrix bags 8).length = 8 ∧
    (∀ row ∈ createMatrix bags 8,
      row.length = ⌈(bags.length : ℚ) / 8⌉₊) ∧
    (∀ r c, r < 8 →
      ((createMatrix bags 8).getD r []).getD c none =
        bags.get? (c * 8 + r)) ∧
    flattenColMajor (createMatrix bags 8) = bags := by
  refine ⟨by simp [createMatrix], ?_, ?_, ?_⟩
  · intro row hrow
    rw [ceil_div_eight]
    simp only [createMatrix, List.mem_map, List.mem_range] at hrow
    obtain ⟨r, _, rfl⟩ := hrow
    simp
  · intro r c hr
    have hrow : ((createMatrix bags 8).getD r []) =
        (List.range ((bags.length + 8 - 1) / 8)).map
          (fun col => bags.get? (col * 8 + r)) := by
      unfold createMatrix
      rw [List.getD_eq_getElem?_getD, List.getElem?_map,
        List.getElem?_range hr]
      rfl
    rw [hrow]
    by_cases hc : c < (bags.length + 8 - 1) / 8
    · rw [List.getD_eq_getElem?_getD, List.getElem?_map,
        List.getElem?_range hc]
      rfl
    · rw [List.getD_eq_getElem?_getD, List.getElem?_eq_none
        (by simpa using Nat.le_of_not_lt hc)]
      have hout : bags.length ≤ c * 8 + r := by
        have h8 : bags.length ≤ ((bags.length + 8 - 1) / 8) * 8 := by
          omega
        have : ((bags.length + 8 - 1) / 8) * 8 ≤ c * 8 := by
          exact Nat.mul_le_mul_right 8 (Nat.le_of_not_lt hc)
        omega
      rw [List.get?_eq_getElem?, List.getElem?_eq_none hout]
      rfl
  · unfold flattenColMajor
    have hhead : ((createMatrix bags 8).headD []).length =
        (bags.length + 8 - 1) / 8 := by
      simp [createMatrix, List.range_succ_eq_map]
    rw [hhead]
    rw [flatMap_congr_mem _ _
      (fun c => (bags.drop (c * 8)).take 8)
      (fun c hc => createMatrix_col bags c (List.mem_range.mp hc))]
    exact chunks_flatMap _ bags (by omega)

lemma levRowAux_length (x : Char) :
    ∀ (l : List (Char × ℕ)) (pj1 cp : ℕ),
      (levRowAux x l pj1 cp).length = l.length := by
  intro l
  induction l with
  | nil => intro _ _; rfl
  | cons e rest ih =>
    intro pj1 cp
    obtain ⟨y, pj⟩ := e
    simp [levRowAux, ih]

lemma levRow_length (x : Char) (b : List Char) (prev : List ℕ)
    (h : prev.length = b.length + 1) :
    (levRow x b prev).length = b.length + 1 := by
  cases prev with
  | nil => simp at h
  | cons p0 rest =>
    simp only [levRow, List.length_cons, levRowAux_length,
      List.length_zip]
    simp only [List.length_cons] at h
    omega

lemma levFold_length (b : List Char) :
    ∀ (a : List Char) (prev : List ℕ),
      prev.length = b.length + 1 →
      (a.foldl (fun prev x => levRow x b prev) prev).length =
        b.length + 1 := by
  intro a
  induction a with
  | nil => intro prev h; exact h
  | cons x t ih =>
    intro prev h
    rw [List.foldl_cons]
    exact ih _ (levRow_length x b prev h)

lemma zip_get?_snd {α β : Type} :
    ∀ (l₁ : List α) (l₂ : List β) (k : ℕ) (p : α × β),
      (l₁.zip l₂).get? k = some p → l₂.get? k = some p.2 := by
  intro l₁
  induction l₁ with
  | nil => intro l₂ k p h; simp at h
  | cons a t ih =>
    intro l₂ k p h
    cases l₂ with
    | nil => simp at h
    | cons b t₂ =>
      cases k with
      | zero =>
        rw [List.zip_cons_cons] at h
        simp only [List.get?] at h ⊢
        cases h
        rfl
      | succ k =>
        rw [List.zip_cons_cons] at h
        simp only [List.get?] at h ⊢
        exact ih t₂ k p h

lemma levRowAux_bound (x : Char) :
    ∀ (l : List (Char × ℕ)) (pj1 cp i s : ℕ),
      pj1 ≤ max i s →
      (∀ k p, l.get? k = some p → p.2 ≤ max i (s + 1 + k)) →
      ∀ k c, (levRowAux x l pj1 cp).get? k = some c →
        c ≤ max (i + 1) (s + 1 + k) := by
  intro l
  induction l with
  | nil => intro _ _ _ _ _ _ k c h; simp [levRowAux] at h
  | cons e rest ih =>
    intro pj1 cp i s hpj1 hl k c hc
    obtain ⟨y, pj⟩ := e
    cases k with
    | zero =>
      simp only [levRowAux, List.get?] at hc
      cases hc
      have hcost : (if x = y then 0 else 1) ≤ 1 := by
        split <;> omega
      have : min (pj + 1) (min (cp + 1)
          (pj1 + if x = y then 0 else 1)) ≤ pj1 + 1 := by
        calc min (pj + 1) (min (cp + 1)
            (pj1 + if x = y then 0 else 1)) ≤
              pj1 + (if x = y then 0 else 1) :=
            le_trans (Nat.min_le_right _ _) (Nat.min_le_right _ _)
          _ ≤ pj1 + 1 := by omega
      omega
    | succ k =>
      simp only [levRowAux, List.get?] at hc
      have hpj : pj ≤ max i (s + 1) := by
        have := hl 0 (y, pj) rfl
        simpa using this
      have hrest : ∀ k p, rest.get? k = some p →
          p.2 ≤ max i (s + 1 + 1 + k) := by
        intro k p hp
        have := hl (k + 1) p (by simpa [List.get?] using hp)
        omega
      have := ih pj _ i (s + 1) hpj hrest k c hc
      omega

lemma levRow_bound (x : Char) (b : List Char) (prev : List ℕ) (i : ℕ)
    (hb : ∀ k v, prev.get? k = some v → v ≤ max i k) :
    ∀ k v, (levRow x b prev).get? k = some v → v ≤ max (i + 1) k := by
  cases prev with
  | nil => intro k v h; simp [levRow] at h
  | cons p0 rest =>
    intro k v h
    have hp0 : p0 ≤ i := by
      have := hb 0 p0 rfl
      omega
    cases k with
    | zero =>
      simp only [levRow, List.get?] at h
      cases h
      omega
    | succ k =>
      simp only [levRow, List.get?] at h
      have hzip : ∀ k p, (b.zip rest).get? k = some p →
          p.2 ≤ max i (0 + 1 + k) := by
        intro k p hp
        have h2 := zip_get?_snd b rest k p hp
        have := hb (k + 1) p.2 (by simpa [List.get?] using h2)
        omega
      have := levRowAux_bound x (b.zip rest) p0 (p0 + 1) i 0
        (by omega) hzip k v h
      omega

lemma levFold_bound (b : List Char) :
    ∀ (a : List Char) (prev : List ℕ) (i : ℕ),
      (∀ k v, prev.get? k = some v → v ≤ max i k) →
      ∀ k v,
        ((a.foldl (fun prev x => levRow x b prev) prev)).get? k =
          some v → v ≤ max (i + a.length) k := by
  intro a
  induction a with
  | nil =>
    intro prev i hb k v h
    have := hb k v h
    omega
  | cons x t ih =>
    intro prev i hb k v h
    rw [List.foldl_cons] at h
    have := ih (levRow x b prev) (i + 1) (levRow_bound x b prev i hb)
      k v h
    simp only [List.length_cons]
    omega

lemma levenshteinDistance_le (a b : List Char) :
    levenshteinDistance a b ≤ max a.length b.length := by
  unfold levenshteinDistance
  have hlen : ((a.foldl (fun prev x => levRow x b prev)
      (List.range (b.length + 1)))).length = b.length + 1 :=
    levFold_length b a _ (by simp)
  have hinit : ∀ k v, (List.range (b.length + 1)).get? k = some v →
      v ≤ max 0 k := by
    intro k v h
    by_cases hk : k < b.length + 1
    · rw [List.get?_eq_getElem?, List.getElem?_range hk] at h
      cases h
      omega
    · rw [List.get?_eq_getElem?, List.getElem?_eq_none
        (by simpa using Nat.le_of_not_lt hk)] at h
      cases h
  have hbound := levFold_bound b a (List.range (b.length + 1)) 0 hinit
  set row := a.foldl (fun prev x => levRow x b prev)
    (List.range (b.length + 1)) with hrow
  have hlt : b.length < row.length := by omega
  have hsome : row.get? b.length = some (row.get ⟨b.length, hlt⟩) :=
    List.get?_eq_get hlt
  have hv := hbound b.length _ hsome
  have hlast : row.getLastD 0 = row.get ⟨b.length, hlt⟩ := by
    rw [List.getLastD_eq_getLast?, List.getLast?_eq_get?]
    have hl1 : row.length - 1 = b.length := by omega
    rw [hl1, hsome]
    rfl
  rw [hlast]
  omega

lemma lev_nil_left (b : List Char) :
    levenshteinDistance [] b = b.length := by
  unfold levenshteinDistance
  rw [List.foldl_nil, List.range_succ, List.getLastD_concat]

lemma levFold_nil_right :
    ∀ (a : List Char) (i : ℕ),
      a.foldl (fun prev x => levRow x [] prev) [i] = [i + a.length] := by
  intro a
  induction a with
  | nil => intro i; simp
  | cons x t ih =>
    intro i
    rw [List.foldl_cons]
    have hstep : levRow x [] [i] = [i + 1] := rfl
    rw [hstep, ih (i + 1)]
    congr 1
    simp
    omega

lemma lev_nil_right (a : List Char) :
    levenshteinDistance a [] = a.length := by
  unfold levenshteinDistance
  have h0 : List.range (List.length ([] : List Char) + 1) = [0] := rfl
  rw [h0, levFold_nil_right a 0]
  simp

lemma similarity_eq_formula (a b : List Char) :
    similarity a b =
      1 - (levenshteinDistance (jsToLower a) (jsToLower b) : ℚ) /
        (max a.length b.length : ℚ) := by
  by_cases ha : a = []
  · by_cases hb : b = []
    · subst ha; subst hb
      show (1 : ℚ) = 1 -
        (levenshteinDistance (jsToLower []) (jsToLower []) : ℚ) / _
      rw [show jsToLower [] = [] from rfl, lev_nil_left]
      norm_num
    · subst ha
      have hb' : b.isEmpty = false := by
        cases b
        · exact absurd rfl hb
        · rfl
      have hbl : 0 < b.length := by
        cases b
        · exact absurd rfl hb
        · simp
      show similarity [] b = _
      unfold similarity
      rw [show ([] : List Char).isEmpty = true from rfl, hb']
      simp only [Bool.true_and, Bool.true_or, Bool.false_eq_true,
        if_false, if_true]
      rw [show jsToLower [] = [] from rfl, lev_nil_left, jsToLower,
        List.length_map]
      have hmax : ((List.length ([] : List Char) : ℚ)) ⊔
          (b.length : ℚ) = (b.length : ℚ) := by
        simp
      rw [hmax, div_self (by exact_mod_cast hbl.ne' : (b.length : ℚ) ≠ 0)]
      norm_num
  · by_cases hb : b = []
    · subst hb
      have ha' : a.isEmpty = false := by
        cases a
        · exact absurd rfl ha
        · rfl
      have hal : 0 < a.length := by
        cases a
        · exact absurd rfl ha
        · simp
      unfold similarity
      rw [ha']
      simp only [Bool.false_and, Bool.false_or, Bool.false_eq_true,
        if_false]
      rw [show jsToLower [] = [] from rfl, lev_nil_right, jsToLower,
        List.length_map]
      have hmax : ((a.length : ℚ)) ⊔
          ((List.length ([] : List Char) : ℚ)) = (a.length : ℚ) := by
        simp
      rw [hmax, div_self (by exact_mod_cast hal.ne' : (a.length : ℚ) ≠ 0)]
      have hise : (List.isEmpty ([] : List Char)) = true := rfl
      rw [hise]
      norm_num
    · have ha' : a.isEmpty = false := by
        cases a
        · exact absurd rfl ha
        · rfl
      have hb' : b.isEmpty = false := by
        cases b
        · exact absurd rfl hb
        · rfl
      unfold similarity
      rw [ha', hb']
      simp

lemma similarity_mem_unit (a b : List Char) :
    0 ≤ similarity a b ∧ similarity a b ≤ 1 := by
  rw [similarity_eq_formula]
  by_cases hab : a = [] ∧ b = []
  · obtain ⟨rfl, rfl⟩ := hab
    rw [show jsToLower [] = [] from rfl, lev_nil_left]
    norm_num
  · have hpos : 0 < max a.length b.length := by
      rcases Classical.not_and_iff_or_not_not.mp hab with h | h
      · have : 0 < a.length := List.length_pos.mpr h
        omega
      · have : 0 < b.length := List.length_pos.mpr h
        omega
    have hm : 0 < (max a.length b.length : ℚ) := by exact_mod_cast hpos
    have hd : (levenshteinDistance (jsToLower a) (jsToLower b) : ℚ) ≤
        (max a.length b.length : ℚ) := by
      have h := levenshteinDistance_le (jsToLower a) (jsToLower b)
      rw [jsToLower, jsToLower, List.length_map, List.length_map] at h
      exact_mod_cast h
    have h1 : (levenshteinDistance (jsToLower a) (jsToLower b) : ℚ) /
        (max a.length b.length : ℚ) ≤ 1 := (div_le_one hm).mpr hd
    have h0 : (0 : ℚ) ≤
        (levenshteinDistance (jsToLower a) (jsToLower b) : ℚ) /
          (max a.length b.length : ℚ) :=
      div_nonneg (by positivity) (le_of_lt hm)
    constructor <;> linarith

lemma lev_flour_flour :
    levenshteinDistance (jsToLower "Flour".data)
      (jsToLower "flour".data) = 0 := by decide

lemma lev_flour_sugar :
    levenshteinDistance (jsToLower "Flour".data)
      (jsToLower "Sugar".data) = 4 := by decide

/-- C9: `similarity` equals `1 - levenshtein(lower a, lower b) /
max(len a, len b)` (with the `0/0 = 0` convention making the both-empty
case agree), lies in `[0, 1]`, returns `1` when both strings are empty
and `0` when exactly one is; `similarity("Flour","flour") = 1` and
`similarity("Flour","Sugar") < 0.8`. -/
theorem claim_C9 (a b : List Char) :
    similarity a b =
      1 - (levenshteinDistance (jsToLower a) (jsToLower b) : ℚ) /
        (max a.length b.length : ℚ) ∧
    0 ≤ similarity a b ∧ similarity a b ≤ 1 ∧
    (a = [] → b = [] → similarity a b = 1) ∧
    (a = [] → b ≠ [] → similarity a b = 0) ∧
    (a ≠ [] → b = [] → similarity a b = 0) ∧
    similarity "Flour".data "flour".data = 1 ∧
    similarity "Flour".data "Sugar".data < 0.8 := by
  obtain ⟨h0, h1⟩ := similarity_mem_unit a b
  refine ⟨similarity_eq_formula a b, h0, h1, ?_, ?_, ?_, ?_, ?_⟩
  · rintro rfl rfl; rfl
  · rintro rfl hb
    have hb' : b.isEmpty = false := by
      cases b
      · exact absurd rfl hb
      · rfl
    unfold similarity
    rw [hb']
    simp
  · rintro ha rfl
    have ha' : a.isEmpty = false := by
      cases a
      · exact absurd rfl ha
      · rfl
    unfold similarity
    rw [ha']
    simp
  · rw [similarity_eq_formula, lev_flour_flour]
    norm_num
  · rw [similarity_eq_formula, lev_flour_sugar]
    have hfl : ("Flour".data).length = 5 := rfl
    have hsu : ("Sugar".data).length = 5 := rfl
    rw [hfl, hsu]
    norm_num

lemma foldl_flatMap {α β γ : Type} (l : List α) (g : α → List β)
    (f : γ → β → γ) :
    ∀ init : γ, (l.flatMap g).foldl f init =
      l.foldl (fun acc x => (g x).foldl f acc) init := by
  induction l with
  | nil => intro init; rfl
  | cons a t ih =>
    intro init
    rw [List.flatMap_cons, List.foldl_append, List.foldl_cons, ih]

lemma key_mem_of_findSimilar {acc : List (String × AggEntry)}
    {name k : String}
    (h : findSimilarIngredientKey acc name 0.8 = some k) :
    k ∈ acc.map Prod.fst := by
  unfold findSimilarIngredientKey at h
  obtain ⟨e, he, rfl⟩ := Option.map_eq_some'.mp h
  exact List.mem_map_of_mem Prod.fst (List.mem_of_find?_eq_some he)

lemma sumW_addWeightFirst :
    ∀ (acc : List (String × AggEntry)) (k : String) (w : ℚ),
      k ∈ acc.map Prod.fst →
      ((addWeightFirst acc k w).map
        (fun e => e.2.totalWeight)).sum =
        (acc.map (fun e => e.2.totalWeight)).sum + w := by
  intro acc
  induction acc with
  | nil => intro k w h; simp at h
  | cons e rest ih =>
    intro k w h
    obtain ⟨k0, entry⟩ := e
    by_cases hk : k0 = k
    · subst hk
      simp only [addWeightFirst, eq_self_iff_true, if_true,
        List.map_cons, List.sum_cons]
      ring
    · simp only [addWeightFirst, if_neg hk, List.map_cons,
        List.sum_cons]
      have hmem : k ∈ rest.map Prod.fst := by
        simp only [List.map_cons, List.mem_cons] at h
        rcases h with h | h
        · exact absurd h.symm hk
        · exact h
      rw [ih k w hmem]
      ring

lemma sumW_specMergeStep (acc : List (String × AggEntry))
    (c : String × ℚ × String) :
    ((specMergeStep acc c).map (fun e => e.2.totalWeight)).sum =
      (acc.map (fun e => e.2.totalWeight)).sum + c.2.1 := by
  rcases h : findSimilarIngredientKey acc c.1 0.8 with _ | k
  · unfold specMergeStep
    rw [h]
    simp
  · unfold specMergeStep
    rw [h]
    exact sumW_addWeightFirst acc k c.2.1 (key_mem_of_findSimilar h)

lemma sumW_foldl_mergeStep :
    ∀ (cs : List (String × ℚ × String))
      (acc : List (String × AggEntry)),
      ((cs.foldl specMergeStep acc).map
        (fun e => e.2.totalWeight)).sum =
        (acc.map (fun e => e.2.totalWeight)).sum +
          (cs.map (fun c => c.2.1)).sum := by
  intro cs
  induction cs with
  | nil => intro acc; simp
  | cons c rest ih =>
    intro acc
    rw [List.foldl_cons, ih, sumW_specMergeStep]
    simp only [List.map_cons, List.sum_cons]
    ring

lemma sum_flatMap_q {α : Type} (l : List α) (g : α → List ℚ) :
    (l.flatMap g).sum = (l.map (fun a => (g a).sum)).sum := by
  induction l with
  | nil => rfl
  | cons a t ih =>
    rw [List.flatMap_cons, List.sum_append, List.map_cons,
      List.sum_cons, ih]

lemma sum_map_mul_const (l : List Ingredient) (r : ℚ) :
    (l.map (fun ing => ing.weight * r)).sum =
      (l.map Ingredient.weight).sum * r := by
  induction l with
  | nil => simp
  | cons i t ih =>
    simp only [List.map_cons, List.sum_cons, ih]
    ring

lemma keys_addWeightFirst :
    ∀ (acc : List (String × AggEntry)) (k : String) (w : ℚ),
      (addWeightFirst acc k w).map Prod.fst = acc.map Prod.fst := by
  intro acc
  induction acc with
  | nil => intro _ _; rfl
  | cons e rest ih =>
    intro k w
    obtain ⟨k0, entry⟩ := e
    by_cases hk : k0 = k
    · subst hk
      simp [addWeightFirst]
    · simp [addWeightFirst, hk, ih]

lemma keys_foldl_mergeStep :
    ∀ (cs : List (String × ℚ × String))
      (acc : List (String × AggEntry)) (k : String),
      k ∈ (cs.foldl specMergeStep acc).map Prod.fst →
      k ∈ acc.map Prod.fst ∨ k ∈ cs.map (fun c => c.1) := by
  intro cs
  induction cs with
  | nil => intro acc k h; exact Or.inl h
  | cons c rest ih =>
    intro acc k h
    rw [List.foldl_cons] at h
    rcases ih (specMergeStep acc c) k h with h1 | h1
    · unfold specMergeStep at h1
      rcases hs : findSimilarIngredientKey acc c.1 0.8 with _ | k'
      · rw [hs] at h1
        simp only [List.map_append, List.mem_append] at h1
        rcases h1 with h1 | h1
        · exact Or.inl h1
        · right
          simp only [List.map_cons, List.mem_cons]
          left
          simpa using h1
      · rw [hs, keys_addWeightFirst] at h1
        exact Or.inl h1
    · right
      simp only [List.map_cons, List.mem_cons]
      exact Or.inr h1

/-- C8: the remaining-weight aggregation is the similarity-merged fold
of per-dish contributions `weight * remainingCount` (with
`remainingCount` the number of incomplete bags), it conserves total
weight, and every bucket key is the name of some contributing
ingredient. -/
theorem claim_C8 (stack : List Dish) :
    aggregatedIngredientsRemaining stack =
      (specContributions stack).foldl specMergeStep [] ∧
    ((aggregatedIngredientsRemaining stack).map
      (fun e => e.2.totalWeight)).sum =
      (stack.map (fun d =>
        (d.ingredients.map Ingredient.weight).sum *
          (remainingCount d : ℚ))).sum ∧
    (∀ k ∈ (aggregatedIngredientsRemaining stack).map Prod.fst,
      ∃ d ∈ stack, ∃ ing ∈ d.ingredients, ing.name = k) := by
  have hflat : aggregatedIngredientsRemaining stack =
      (specContributions stack).foldl specMergeStep [] := by
    unfold specContributions
    rw [foldl_flatMap]
    unfold aggregatedIngredientsRemaining
    congr 1
    funext acc d
    rw [List.foldl_map]
    rfl
  refine ⟨hflat, ?_, ?_⟩
  · rw [hflat, sumW_foldl_mergeStep]
    simp only [List.map_nil, List.sum_nil, zero_add]
    unfold specContributions
    rw [List.map_flatMap, sum_flatMap_q]
    apply congrArg List.sum
    apply List.map_congr_left
    intro d _
    rw [List.map_map]
    have hcomp : ((fun c : String × ℚ × String => c.2.1) ∘ fun ing =>
        (ing.name, ing.weight * (remainingCount d : ℚ), ing.unit)) =
        fun ing : Ingredient =>
          ing.weight * (remainingCount d : ℚ) := rfl
    rw [hcomp, sum_map_mul_const]
  · intro k hk
    rw [hflat] at hk
    rcases keys_foldl_mergeStep _ _ _ hk with h | h
    · simp at h
    · unfold specContributions at h
      rw [List.map_flatMap] at h
      rw [List.mem_flatMap] at h
      obtain ⟨d, hd, hmem⟩ := h
      rw [List.map_map] at hmem
      rw [List.mem_map] at hmem
      obtain ⟨ing, hing, heq⟩ := hmem
      exact ⟨d, hd, ing, hing, heq⟩

end PrepTrack
